import Mathlib

/-!
Verification of the bribe-reward aggregation store implemented in
`src/contexts/useBribes.tsx`.

Modelling conventions:
* JS strings (addresses, composite keys) are lists of characters (`Addr`).
* `ethers` BigNumber values are arbitrary-precision integers, modelled as `Int`.
* JS `undefined` read off the end of an array is modelled with `Option`; a method
  call on `undefined` (which throws a TypeError, leaving the React state writes
  at the end of the function unexecuted) makes the loop return `none`, and the
  caller then leaves the state unchanged.
* The two-level `TCurveGaugeRewards` objects are modelled as functions from
  gauge address and token address to an optional stored value; a JS property
  assignment is a functional update.
* The chain is an oracle: `chainTokens` answers the `rewards_per_gauge`
  discovery calls, and a `BribeCall → Int` oracle answers the scalar calls
  batched through `ethcallProvider.tryAll`.
-/

/-- A JS string holding an address or a composite key, as a list of characters. -/
abbrev Addr := List Char

/-- JS `a || b` on strings: the empty string is the only falsy string. -/
def strOr (a b : Addr) : Addr := if a = [] then b else a

/-- Modelled from the spec: `toAddress` from `@yearn-finance/web-lib/utils` is not
under `src/`; per spec §3 all mapping keys are "addresses normalized to a
canonical checksum/lowercase form", modelled here as lowercasing. -/
def toAddress (a : Addr) : Addr := a.map Char.toLower

/-- Modelled from the spec: `allowanceKey` from `utils` is not under `src/`; per
spec §3 a RewardKey is the pair "(gauge address, token address), encoded as a
delimited string", and the aggregation code decodes it with `split('_')`, so the
delimiter is the underscore. -/
def allowanceKey (gauge token : Addr) : Addr := gauge ++ '_' :: token

/-- JS `String.prototype.split` with a single-character separator. On the empty
string it returns `[""]`, exactly as in JS. -/
def splitOnChar (sep : Char) : List Char → List (List Char)
  | [] => [[]]
  | c :: rest =>
    match splitOnChar sep rest with
    | [] => [[]]
    | h :: t => if c = sep then [] :: h :: t else (c :: h) :: t

/-- The destructuring `const [gauge, token] = key.split('_')`: the first two
components of the split, a missing component (JS `undefined`) modelled as the
empty string. -/
def splitKeyPair (k : Addr) : Addr × Addr :=
  ((splitOnChar '_' k).headD [], ((splitOnChar '_' k).drop 1).headD [])

/-- The normalized (gauge, token) pair under which the aggregation loops store a
key's values: both components of the split run through `toAddress`. -/
def normKey (k : Addr) : Addr × Addr :=
  (toAddress (splitKeyPair k).1, toAddress (splitKeyPair k).2)

/-- A `TCurveGaugeRewards` object: a two-level mapping from gauge address and
token address to a stored value, `none` meaning the property is absent. -/
def GaugeRewards (V : Type) : Type := Addr → Addr → Option V

/-- The empty object `{}`. -/
def grEmpty {V : Type} : GaugeRewards V := fun _ _ => none

/-- The JS assignment `m[g][t] = v` (creating the inner object if needed). -/
def grSet {V : Type} (m : GaugeRewards V) (g t : Addr) (v : V) : GaugeRewards V :=
  fun g' t' => if g' = g ∧ t' = t then some v else m g' t'

/-- The React state of `BribesContextApp`: the three published mappings, the
loading flag, and the two period scalars. -/
structure BribesState where
  currentRewards : GaugeRewards Int
  nextRewards : GaugeRewards Int
  claimable : GaugeRewards (Option Int)
  isLoading : Bool
  currentPeriod : Int
  nextPeriod : Int

/-- The state right after mount: all three mappings empty, `isLoading` true,
`currentPeriod` the locally computed last Thursday boundary (a parameter here,
since it depends on wall-clock time) and `nextPeriod` one week later. -/
def initialState (p : Int) : BribesState :=
  ⟨grEmpty, grEmpty, grEmpty, true, p, p + 86400 * 7⟩

/-- The decode loop of `assignBribes` (lines 178-199): walks the key list,
consuming three results per key (reward, period, claimable).  Reading the
period past the end of the result array throws (`undefined.toNumber()`), which
is `none`.  When only the claimable value is missing, JS stores `undefined`,
modelled by the inner `Option`. -/
def assignBribesLoop (currentPeriod : Int) :
    List Addr → List Int → GaugeRewards Int → GaugeRewards Int →
      GaugeRewards (Option Int) →
      Option (GaugeRewards Int × GaugeRewards Int × GaugeRewards (Option Int))
  | [], _, cur, per, clm => some (cur, per, clm)
  | k :: ks, res, cur, per, clm =>
    match res with
    | r :: p :: rest =>
      if currentPeriod ≤ p then
        if k ≠ [] ∧ 0 < r then
          assignBribesLoop currentPeriod ks rest.tail
            (grSet cur (normKey k).1 (normKey k).2 r)
            (grSet per (normKey k).1 (normKey k).2 p)
            (grSet clm (normKey k).1 (normKey k).2 rest.head?)
        else assignBribesLoop currentPeriod ks rest.tail cur per clm
      else assignBribesLoop currentPeriod ks rest.tail cur per clm
    | _ => none

/-- `assignBribes` (lines 169-203): no-op on an empty key or result list;
otherwise rebuilds `currentRewards` and `claimable` from scratch, drops the
locally built `_periods` object, and clears the loading flag.  If the decode
loop throws, none of the trailing state writes happen. -/
def assignBribes (currentPeriod : Int) (rewardsList : List Addr)
    (multicallResult : List Int) (s : BribesState) : BribesState :=
  if multicallResult.length = 0 ∨ rewardsList.length = 0 then s
  else
    match assignBribesLoop currentPeriod rewardsList multicallResult
        grEmpty grEmpty grEmpty with
    | some (cur, _per, clm) =>
      { s with currentRewards := cur, claimable := clm, isLoading := false }
    | none => s

/-- The decode loop of `assignNextRewards` (lines 216-227): two results per key,
storing `reward_per_gauge - claims_per_gauge`.  If either operand of the
subtraction is `undefined` (result list too short) and the key is truthy, the
BigNumber subtraction throws (`none`); a falsy key skips the row entirely. -/
def assignNextLoop :
    List Addr → List Int → GaugeRewards Int → Option (GaugeRewards Int)
  | [], _, nxt => some nxt
  | k :: ks, res, nxt =>
    match res with
    | r :: c :: rest =>
      if k ≠ [] then
        assignNextLoop ks rest (grSet nxt (normKey k).1 (normKey k).2 (r - c))
      else assignNextLoop ks rest nxt
    | _ => if k ≠ [] then none else assignNextLoop ks [] nxt

/-- `assignNextRewards` (lines 209-229): no-op on an empty key or result list;
otherwise rebuilds `nextRewards` from scratch. -/
def assignNextRewards (rewardsList : List Addr) (multicallResult : List Int)
    (s : BribesState) : BribesState :=
  if multicallResult.length = 0 ∨ rewardsList.length = 0 then s
  else
    match assignNextLoop rewardsList multicallResult grEmpty with
    | some nxt => { s with nextRewards := nxt }
    | none => s

/-- A gauge descriptor from the gauge-registry context: the gauge address and
the mutable discovered reward-token list (`undefined` before first use). -/
structure Gauge where
  gauge : Addr
  rewardPerGauge : Option (List Addr)
deriving DecidableEq

/-- One batched read-only scalar contract call, tagged with the contract
address it is issued against. -/
inductive BribeCall where
  | reward_per_token (contract gauge token : Addr)
  | active_period (contract gauge token : Addr)
  | claimable (contract user gauge token : Addr)
  | reward_per_gauge (contract gauge token : Addr)
  | claims_per_gauge (contract gauge token : Addr)
deriving DecidableEq

/-- The contract address a call is issued against. -/
def BribeCall.contractOf : BribeCall → Addr
  | .reward_per_token c _ _ => c
  | .active_period c _ _ => c
  | .claimable c _ _ _ => c
  | .reward_per_gauge c _ _ => c
  | .claims_per_gauge c _ _ => c

/-- `getRewardsPerGauges` (lines 74-87): short-circuits to `[]` when the wallet
is inactive, the provider is missing, or the gauge list is empty; otherwise one
`rewards_per_gauge` discovery call per gauge, results in gauge order. -/
def getRewardsPerGauges (isActive : Bool) (provider : Option Unit)
    (chainTokens : Addr → Addr → List Addr)
    (contract : Addr) (gauges : List Gauge) : List (List Addr) :=
  if isActive = false ∨ provider = none ∨ gauges.length = 0 then []
  else gauges.map fun g => chainTokens contract g.gauge

/-- The hardcoded placeholder address of line 101, which `||` makes the address
actually used for every `claimable` query. -/
def hardcodedUserAddress : Addr := ("0xd63042a93525f33500c3a5c0387856d5a69bd1ec").toList

/-- The three calls pushed per (gauge, token) pair by `getRewardsPerUser`
(lines 117-121). -/
def userTokenCalls (contract userAddress gaugeAddr : Addr) (tokens : List Addr) :
    List BribeCall :=
  tokens.flatMap fun tok =>
    [BribeCall.reward_per_token contract gaugeAddr tok,
     BribeCall.active_period contract gaugeAddr tok,
     BribeCall.claimable contract userAddress gaugeAddr tok]

/-- Result shape of `getRewardsPerUser`: the (mutated) gauge list, the composite
key list, and the issued call batch (`multicallResult` is this batch answered by
the chain oracle). -/
structure UserFetch where
  gauges : List Gauge
  rewardsList : List Addr
  multicall : List BribeCall
deriving DecidableEq

/-- The loop of `getRewardsPerUser` (lines 108-124): pairs each gauge with the
next discovered token list (`shift`, `undefined` once exhausted), and for each
gauge with a non-empty list appends the tokens to the gauge's `rewardPerGauge`
field (initializing it to `[]` when absent) and pushes one key and three calls
per token. -/
def userFetchLoop (contract userAddress : Addr) :
    List Gauge → List (List Addr) → UserFetch
  | [], _ => ⟨[], [], []⟩
  | g :: gs, rpgs =>
    let out := userFetchLoop contract userAddress gs rpgs.tail
    match rpgs.head? with
    | some l =>
      if l.length > 0 then
        ⟨{ g with rewardPerGauge := some (g.rewardPerGauge.getD [] ++ l) } :: out.gauges,
          l.map (allowanceKey g.gauge) ++ out.rewardsList,
          userTokenCalls contract userAddress g.gauge l ++ out.multicall⟩
      else ⟨g :: out.gauges, out.rewardsList, out.multicall⟩
    | none => ⟨g :: out.gauges, out.rewardsList, out.multicall⟩

/-- `getRewardsPerUser` (lines 94-128): short-circuits to empty lists (leaving
the gauges untouched) when inactive, provider missing, or the discovery result
is empty; otherwise runs the loop with the user address forced to the hardcoded
placeholder by `'0xd630…' || address`. -/
def getRewardsPerUser (isActive : Bool) (provider : Option Unit) (address : Addr)
    (contract : Addr) (gauges : List Gauge) (rewardsPerGauges : List (List Addr)) :
    UserFetch :=
  if isActive = false ∨ provider = none ∨ rewardsPerGauges.length = 0 then
    ⟨gauges, [], []⟩
  else userFetchLoop contract (strOr hardcodedUserAddress address) gauges rewardsPerGauges

/-- The two calls pushed per (gauge, token) pair by `getNextPeriodRewards`
(lines 153-156). -/
def nextTokenCalls (contract gaugeAddr : Addr) (tokens : List Addr) : List BribeCall :=
  tokens.flatMap fun tok =>
    [BribeCall.reward_per_gauge contract gaugeAddr tok,
     BribeCall.claims_per_gauge contract gaugeAddr tok]

/-- The loop of `getNextPeriodRewards` (lines 148-159): same pairing as the
per-user loop, but no gauge mutation and two calls per token. -/
def nextFetchLoop (contract : Addr) :
    List Gauge → List (List Addr) → List Addr × List BribeCall
  | [], _ => ([], [])
  | g :: gs, rpgs =>
    let out := nextFetchLoop contract gs rpgs.tail
    match rpgs.head? with
    | some l =>
      if l.length > 0 then
        (l.map (allowanceKey g.gauge) ++ out.1, nextTokenCalls contract g.gauge l ++ out.2)
      else out
    | none => out

/-- `getNextPeriodRewards` (lines 135-163). -/
def getNextPeriodRewards (isActive : Bool) (provider : Option Unit)
    (contract : Addr) (gauges : List Gauge) (rewardsPerGauges : List (List Addr)) :
    List Addr × List BribeCall :=
  if isActive = false ∨ provider = none ∨ rewardsPerGauges.length = 0 then ([], [])
  else nextFetchLoop contract gauges rewardsPerGauges

/-- Everything observable about one `getBribes` run (lines 234-259): the state
after the two assignment calls, the gauge list after the per-user mutations,
and the three fetch outputs. -/
structure GetBribesRun where
  state : BribesState
  gauges : List Gauge
  userFetchV2 : UserFetch
  userFetchV3 : UserFetch
  nextFetch : List Addr × List BribeCall

/-- `getBribes` (lines 234-259): discovery on both contracts, then the per-user
fetches and the next-period fetch, then `assignBribes` over the merged V2/V3
keys and results followed by `assignNextRewards`.  Line 244 of the source
passes `curveBribeV2Contract` (not the V3 contract) together with the
V3-discovered lists; the embedding reproduces that.  The three fetches of the
second `Promise.all` run concurrently over the same gauge array; since only the
per-user fetches mutate it (appends to per-gauge token lists) and no published
output reads those fields, they are threaded here in textual order. -/
def getBribes (v2addr v3addr : Addr) (isActive : Bool) (provider : Option Unit)
    (address : Addr) (chainTokens : Addr → Addr → List Addr)
    (oracle : BribeCall → Int) (gauges : List Gauge) (s : BribesState) :
    GetBribesRun :=
  let rewardsPerGaugesV2 := getRewardsPerGauges isActive provider chainTokens v2addr gauges
  let rewardsPerGaugesV3 := getRewardsPerGauges isActive provider chainTokens v3addr gauges
  let rewardsPerUserV2 :=
    getRewardsPerUser isActive provider address v2addr gauges rewardsPerGaugesV2
  let rewardsPerUserV3 :=
    getRewardsPerUser isActive provider address v2addr rewardsPerUserV2.gauges rewardsPerGaugesV3
  let nextPeriodRewardsV3 :=
    getNextPeriodRewards isActive provider v3addr rewardsPerUserV3.gauges rewardsPerGaugesV3
  let s1 := assignBribes s.currentPeriod
    (rewardsPerUserV2.rewardsList ++ rewardsPerUserV3.rewardsList)
    ((rewardsPerUserV2.multicall ++ rewardsPerUserV3.multicall).map oracle) s
  let s2 := assignNextRewards nextPeriodRewardsV3.1 (nextPeriodRewardsV3.2.map oracle) s1
  ⟨s2, rewardsPerUserV3.gauges, rewardsPerUserV2, rewardsPerUserV3, nextPeriodRewardsV3⟩

/-- The primitive state-writing operations of the component: the two assignment
functions and the period update of `getSharedStuffFromBribes` (lines 60-63). -/
inductive StateOp where
  | assignBribesOp (rewardsList : List Addr) (multicallResult : List Int)
  | assignNextRewardsOp (rewardsList : List Addr) (multicallResult : List Int)
  | setPeriodsOp (p : Int)

/-- One state transition of the component. -/
def stepState (s : BribesState) : StateOp → BribesState
  | .assignBribesOp ks res => assignBribes s.currentPeriod ks res s
  | .assignNextRewardsOp ks res => assignNextRewards ks res s
  | .setPeriodsOp p => { s with currentPeriod := p, nextPeriod := p + 86400 * 7 }

theorem splitOnChar_ne_nil (sep : Char) : ∀ l : List Char, splitOnChar sep l ≠ [] := by
  intro l
  cases l with
  | nil => simp [splitOnChar]
  | cons c rest =>
    simp only [splitOnChar]
    cases h : splitOnChar sep rest with
    | nil => simp
    | cons h t =>
      by_cases hc : c = sep <;> simp [hc]

theorem splitOnChar_of_not_mem (sep : Char) :
    ∀ l : List Char, sep ∉ l → splitOnChar sep l = [l] := by
  intro l
  induction l with
  | nil => intro _; rfl
  | cons c rest ih =>
    intro hmem
    have hc : c ≠ sep := fun h => hmem (h ▸ List.mem_cons_self c rest)
    have hrest : sep ∉ rest := fun h => hmem (List.mem_cons_of_mem c h)
    simp [splitOnChar, ih hrest, hc]

theorem splitOnChar_append (sep : Char) :
    ∀ (g rest : List Char) (hd : List Char) (tl : List (List Char)), sep ∉ g →
      splitOnChar sep rest = hd :: tl →
      splitOnChar sep (g ++ rest) = (g ++ hd) :: tl := by
  intro g
  induction g with
  | nil => intro rest hd tl _ hs; simpa using hs
  | cons c gs ih =>
    intro rest hd tl hmem hs
    have hc : c ≠ sep := fun h => hmem (h ▸ List.mem_cons_self c gs)
    have hgs : sep ∉ gs := fun h => hmem (List.mem_cons_of_mem c h)
    have := ih rest hd tl hgs hs
    simp [splitOnChar, this, hc]

/-- C5: splitting the underscore-delimited composite key built from a gauge
address and a token address (in any casing, as long as neither contains an
underscore, which hex addresses never do) reconstructs the exact pair. -/
theorem allowanceKey_split_roundtrip (gauge token : Addr)
    (hg : '_' ∉ gauge) (ht : '_' ∉ token) :
    splitKeyPair (allowanceKey gauge token) = (gauge, token) := by
  have h1 : splitOnChar '_' ('_' :: token) = [] :: [token] := by
    simp [splitOnChar, splitOnChar_of_not_mem '_' token ht]
  have h2 : splitOnChar '_' (gauge ++ '_' :: token) = (gauge ++ []) :: [token] :=
    splitOnChar_append '_' gauge ('_' :: token) [] [token] hg h1
  simp only [allowanceKey, splitKeyPair, h2, List.append_nil]
  rfl

theorem allowanceKey_split_roundtrip_witness :
    splitKeyPair (allowanceKey ("0xAbCdEf012345".toList) ("0x9F8e7D6c5B4a".toList)) =
      ("0xAbCdEf012345".toList, "0x9F8e7D6c5B4a".toList) :=
  allowanceKey_split_roundtrip _ _ (by decide) (by decide)

/-- C6: discovery with an inactive wallet, a missing provider, or an empty
gauge list returns the empty list (a defined result, not an error: the
function is total). -/
theorem getRewardsPerGauges_empty (isActive : Bool) (provider : Option Unit)
    (chainTokens : Addr → Addr → List Addr) (contract : Addr) (gauges : List Gauge)
    (h : isActive = false ∨ provider = none ∨ gauges = []) :
    getRewardsPerGauges isActive provider chainTokens contract gauges = [] := by
  unfold getRewardsPerGauges
  rcases h with h | h | h <;> simp [h]

theorem getRewardsPerGauges_empty_witness :
    getRewardsPerGauges false (some ()) (fun _ _ => []) ("0xb2".toList)
      [⟨"0xg1".toList, none⟩] = [] :=
  getRewardsPerGauges_empty _ _ _ _ _ (Or.inl rfl)

/-- C7: with an empty key list or an empty result list, `assignBribes` and
`assignNextRewards` both return the state completely unchanged (all three
mappings and the loading flag included): partial results are never published. -/
theorem assign_empty_noop (s : BribesState) (currentPeriod : Int)
    (rewardsList : List Addr) (multicallResult : List Int)
    (h : rewardsList = [] ∨ multicallResult = []) :
    assignBribes currentPeriod rewardsList multicallResult s = s ∧
      assignNextRewards rewardsList multicallResult s = s := by
  rcases h with h | h <;> subst h <;>
    exact ⟨by simp [assignBribes], by simp [assignNextRewards]⟩

theorem assign_empty_noop_witness :
    assignBribes 7 [] [1, 2, 3] (initialState 7) = initialState 7 ∧
      assignNextRewards [] [1, 2, 3] (initialState 7) = initialState 7 :=
  assign_empty_noop (initialState 7) 7 [] [1, 2, 3] (Or.inl rfl)

theorem hardcodedUserAddress_ne_nil : hardcodedUserAddress ≠ [] := by decide

theorem strOr_of_ne (a b : Addr) (h : a ≠ []) : strOr a b = a := by
  simp [strOr, h]

theorem userTokenCalls_claimable_user (tokens : List Addr) (c u g : Addr)
    (c' u' g' t' : Addr)
    (h : BribeCall.claimable c' u' g' t' ∈ userTokenCalls c u g tokens) : u' = u := by
  simp only [userTokenCalls, List.mem_flatMap, List.mem_cons, List.not_mem_nil,
    or_false] at h
  obtain ⟨tok, -, h | h | h⟩ := h
  · exact BribeCall.noConfusion h
  · exact BribeCall.noConfusion h
  · cases h
    rfl

theorem userFetchLoop_claimable_user (contract userAddress : Addr) :
    ∀ (gs : List Gauge) (rpgs : List (List Addr)) (c' u' g' t' : Addr),
      BribeCall.claimable c' u' g' t' ∈
        (userFetchLoop contract userAddress gs rpgs).multicall →
      u' = userAddress := by
  intro gs
  induction gs with
  | nil => intro rpgs c' u' g' t' h; simp [userFetchLoop] at h
  | cons g gs ih =>
    intro rpgs c' u' g' t' h
    simp only [userFetchLoop] at h
    cases hh : rpgs.head? with
    | none =>
      rw [hh] at h
      exact ih rpgs.tail c' u' g' t' h
    | some l =>
      rw [hh] at h
      by_cases hl : l.length > 0
      · simp only [hl, if_true, List.mem_append] at h
        rcases h with h | h
        · exact userTokenCalls_claimable_user l contract userAddress g.gauge _ _ _ _ h
        · exact ih rpgs.tail c' u' g' t' h
      · simp only [hl, if_false] at h
        exact ih rpgs.tail c' u' g' t' h

/-- C4: the per-user fetch builds its `claimable` queries with the hardcoded
placeholder address, never the connected account; consequently its whole
output — updated gauges, key list, call batch, and therefore the result batch
answered by any chain oracle — is identical across two runs that differ only in
the connected address. -/
theorem getRewardsPerUser_ignores_address (isActive : Bool) (provider : Option Unit)
    (a1 a2 : Addr) (contract : Addr) (gauges : List Gauge)
    (rewardsPerGauges : List (List Addr)) (oracle : BribeCall → Int) :
    getRewardsPerUser isActive provider a1 contract gauges rewardsPerGauges =
      getRewardsPerUser isActive provider a2 contract gauges rewardsPerGauges ∧
    (getRewardsPerUser isActive provider a1 contract gauges rewardsPerGauges).multicall.map
        oracle =
      (getRewardsPerUser isActive provider a2 contract gauges rewardsPerGauges).multicall.map
        oracle ∧
    ∀ c u g t,
      BribeCall.claimable c u g t ∈
        (getRewardsPerUser isActive provider a1 contract gauges rewardsPerGauges).multicall →
      u = hardcodedUserAddress := by
  have heq :
      getRewardsPerUser isActive provider a1 contract gauges rewardsPerGauges =
        getRewardsPerUser isActive provider a2 contract gauges rewardsPerGauges := by
    unfold getRewardsPerUser
    rw [strOr_of_ne _ a1 hardcodedUserAddress_ne_nil,
      strOr_of_ne _ a2 hardcodedUserAddress_ne_nil]
  refine ⟨heq, by rw [heq], ?_⟩
  intro c u g t h
  unfold getRewardsPerUser at h
  by_cases hcond :
      isActive = false ∨ provider = none ∨ rewardsPerGauges.length = 0
  · rw [if_pos hcond] at h
    exact absurd h (List.not_mem_nil _)
  · rw [if_neg hcond, strOr_of_ne _ a1 hardcodedUserAddress_ne_nil] at h
    exact userFetchLoop_claimable_user contract hardcodedUserAddress gauges
      rewardsPerGauges c u g t h

theorem getRewardsPerUser_ignores_address_witness :
    getRewardsPerUser true (some ()) ("0xAL1CE".toList) ("0xb2".toList)
        [⟨"0xaa".toList, none⟩] [["0xTT".toList]] =
      getRewardsPerUser true (some ()) ("0xB0B".toList) ("0xb2".toList)
        [⟨"0xaa".toList, none⟩] [["0xTT".toList]] ∧
    (getRewardsPerUser true (some ()) ("0xAL1CE".toList) ("0xb2".toList)
        [⟨"0xaa".toList, none⟩] [["0xTT".toList]]).multicall.map (fun _ => (0 : Int)) =
      (getRewardsPerUser true (some ()) ("0xB0B".toList) ("0xb2".toList)
        [⟨"0xaa".toList, none⟩] [["0xTT".toList]]).multicall.map (fun _ => (0 : Int)) ∧
    ∀ c u g t,
      BribeCall.claimable c u g t ∈
        (getRewardsPerUser true (some ()) ("0xAL1CE".toList) ("0xb2".toList)
          [⟨"0xaa".toList, none⟩] [["0xTT".toList]]).multicall →
      u = hardcodedUserAddress :=
  getRewardsPerUser_ignores_address true (some ()) ("0xAL1CE".toList) ("0xB0B".toList)
    ("0xb2".toList) [⟨"0xaa".toList, none⟩] [["0xTT".toList]] (fun _ => (0 : Int))

/-- How one run of the per-user loop rewrites the gauge at position `i`:
untouched unless its discovered token list is present and non-empty, in which
case the tokens are appended to `rewardPerGauge` (initialized to `[]`). -/
theorem userFetchLoop_gauges_get (contract userAddress : Addr) :
    ∀ (gs : List Gauge) (rpgs : List (List Addr)) (i : Nat),
      ((userFetchLoop contract userAddress gs rpgs).gauges)[i]? =
        (gs[i]?).map fun g =>
          match rpgs[i]? with
          | some l =>
            if l.length > 0 then
              { g with rewardPerGauge := some (g.rewardPerGauge.getD [] ++ l) }
            else g
          | none => g := by
  intro gs
  induction gs with
  | nil => intro rpgs i; simp [userFetchLoop]
  | cons g gs ih =>
    intro rpgs i
    have htail : ∀ j : Nat, rpgs.tail[j]? = rpgs[j + 1]? := by
      intro j; cases rpgs <;> simp
    cases i with
    | zero =>
      cases hh : rpgs.head? with
      | none =>
        have : rpgs = [] := by cases rpgs <;> simp_all
        subst this
        simp [userFetchLoop]
      | some l =>
        obtain ⟨rest, rfl⟩ : ∃ rest, rpgs = l :: rest := by
          cases rpgs <;> simp_all
        by_cases hl : l.length > 0 <;> simp [userFetchLoop, hl]
    | succ i =>
      cases hh : rpgs.head? with
      | none =>
        have : rpgs = [] := by cases rpgs <;> simp_all
        subst this
        simpa [userFetchLoop] using ih [] i
      | some l =>
        obtain ⟨rest, rfl⟩ : ∃ rest, rpgs = l :: rest := by
          cases rpgs <;> simp_all
        by_cases hl : l.length > 0 <;>
          simpa [userFetchLoop, hl] using ih rest i

/-- C8: with a non-empty discovered token list for the gauge at position `i`,
the per-user fetch appends those tokens to that gauge's `rewardPerGauge` field
(initializing it to `[]` when absent) instead of replacing it; running the
fetch twice with the same discovery result on a fresh gauge therefore leaves
every discovered token listed twice in the gauge descriptor. -/
theorem getRewardsPerUser_appends_twice
    (address contract : Addr) (gauges : List Gauge) (rpg : List (List Addr))
    (i : Nat) (g : Gauge) (l : List Addr)
    (hg : gauges[i]? = some g) (hl : rpg[i]? = some l) (hlne : l ≠ []) :
    ((getRewardsPerUser true (some ()) address contract gauges rpg).gauges)[i]? =
      some { g with rewardPerGauge := some (g.rewardPerGauge.getD [] ++ l) } ∧
    (g.rewardPerGauge = none →
      (((getRewardsPerUser true (some ()) address contract
            (getRewardsPerUser true (some ()) address contract gauges rpg).gauges
            rpg).gauges)[i]? =
          some { g with rewardPerGauge := some (l ++ l) } ∧
        ∀ tok : Addr, (l ++ l).count tok = 2 * l.count tok)) := by
  have hllen : l.length > 0 := by
    cases l with
    | nil => exact absurd rfl hlne
    | cons a as => simp
  have once : ∀ (gs : List Gauge) (g0 : Gauge), gs[i]? = some g0 →
      ((getRewardsPerUser true (some ()) address contract gs rpg).gauges)[i]? =
        some { g0 with rewardPerGauge := some (g0.rewardPerGauge.getD [] ++ l) } := by
    intro gs g0 hg0
    have hrne : ¬(rpg.length = 0) := by
      intro h
      rw [List.length_eq_zero] at h
      subst h
      simp at hl
    have hcond : ¬(true = false ∨ (some () : Option Unit) = none ∨ rpg.length = 0) := by
      simp [hrne]
    unfold getRewardsPerUser
    rw [if_neg hcond]
    rw [userFetchLoop_gauges_get contract (strOr hardcodedUserAddress address) gs rpg i,
      hg0, hl]
    simp [hllen]
  have h1 := once gauges g hg
  refine ⟨h1, fun hnone => ⟨?_, fun tok => by simp [List.count_append, Nat.two_mul]⟩⟩
  have h2 := once _ _ h1
  rw [h2]
  simp [hnone]

theorem getRewardsPerUser_appends_twice_witness :
    ((getRewardsPerUser true (some ()) ("0xu".toList) ("0xb2".toList)
        [⟨"0xaa".toList, none⟩] [["0xTT".toList]]).gauges)[0]? =
      some ⟨"0xaa".toList, some ["0xTT".toList]⟩ ∧
    ((getRewardsPerUser true (some ()) ("0xu".toList) ("0xb2".toList)
        (getRewardsPerUser true (some ()) ("0xu".toList) ("0xb2".toList)
          [⟨"0xaa".toList, none⟩] [["0xTT".toList]]).gauges
        [["0xTT".toList]]).gauges)[0]? =
      some ⟨"0xaa".toList, some ["0xTT".toList, "0xTT".toList]⟩ ∧
    (["0xTT".toList, "0xTT".toList].count ("0xTT".toList) =
      2 * ["0xTT".toList].count ("0xTT".toList)) := by
  have h := getRewardsPerUser_appends_twice ("0xu".toList) ("0xb2".toList)
    [⟨"0xaa".toList, none⟩] [["0xTT".toList]] 0 ⟨"0xaa".toList, none⟩ ["0xTT".toList]
    rfl rfl (by decide)
  exact ⟨by simpa using h.1, by simpa using (h.2 rfl).1, (h.2 rfl).2 ("0xTT".toList)⟩

/-- A well-formed stride-3 result list: one (reward, period, claimable) triple
per key, flattened in call order as `getRewardsPerUser` produces it. -/
def flatten3 (ts : List (Int × Int × Int)) : List Int :=
  ts.flatMap fun e => [e.1, e.2.1, e.2.2]

/-- A well-formed stride-2 result list: one (reward_per_gauge, claims_per_gauge)
pair per key, flattened in call order as `getNextPeriodRewards` produces it. -/
def flatten2 (ps : List (Int × Int)) : List Int :=
  ps.flatMap fun e => [e.1, e.2]

theorem flatten3_length (ts : List (Int × Int × Int)) :
    (flatten3 ts).length = 3 * ts.length := by
  induction ts with
  | nil => rfl
  | cons e es ih => simp [flatten3] at ih ⊢; omega

theorem flatten2_length (ps : List (Int × Int)) :
    (flatten2 ps).length = 2 * ps.length := by
  induction ps with
  | nil => rfl
  | cons e es ih => simp [flatten2] at ih ⊢; omega

theorem grSet_same {V : Type} (m : GaugeRewards V) (g t : Addr) (v : V) :
    grSet m g t v g t = some v := by
  simp [grSet]

theorem grSet_other {V : Type} (m : GaugeRewards V) (g t G T : Addr) (v : V)
    (h : ¬(G = g ∧ T = t)) : grSet m g t v G T = m G T := by
  simp [grSet, h]

theorem grSet_isSome {V : Type} (m : GaugeRewards V) (g t G T : Addr) (v : V) :
    ((grSet m g t v G T).isSome) ↔ ((G = g ∧ T = t) ∨ (m G T).isSome) := by
  by_cases h : G = g ∧ T = t
  · obtain ⟨rfl, rfl⟩ := h
    simp [grSet]
  · simp [grSet, h]

/-- The effect of the `assignBribes` decode loop on a well-formed stride-3
input, as a fold over the zipped (key, triple) rows. -/
def bribesFold (cp : Int) :
    List (Addr × Int × Int × Int) → GaugeRewards Int → GaugeRewards Int →
      GaugeRewards (Option Int) →
      GaugeRewards Int × GaugeRewards Int × GaugeRewards (Option Int)
  | [], cur, per, clm => (cur, per, clm)
  | e :: es, cur, per, clm =>
    if cp ≤ e.2.2.1 ∧ e.1 ≠ [] ∧ 0 < e.2.1 then
      bribesFold cp es
        (grSet cur (normKey e.1).1 (normKey e.1).2 e.2.1)
        (grSet per (normKey e.1).1 (normKey e.1).2 e.2.2.1)
        (grSet clm (normKey e.1).1 (normKey e.1).2 (some e.2.2.2))
    else bribesFold cp es cur per clm

theorem assignBribesLoop_flatten (cp : Int) :
    ∀ (ks : List Addr) (ts : List (Int × Int × Int))
      (cur per : GaugeRewards Int) (clm : GaugeRewards (Option Int)),
      ks.length = ts.length →
      assignBribesLoop cp ks (flatten3 ts) cur per clm =
        some (bribesFold cp (ks.zip ts) cur per clm) := by
  intro ks
  induction ks with
  | nil =>
    intro ts cur per clm hlen
    have : ts = [] := by
      cases ts with
      | nil => rfl
      | cons t ts => simp at hlen
    subst this
    rfl
  | cons k ks ih =>
    intro ts cur per clm hlen
    cases ts with
    | nil => simp at hlen
    | cons t ts =>
      have hlen' : ks.length = ts.length := by simpa using hlen
      have ih' : ∀ cur per clm,
          assignBribesLoop cp ks (ts.flatMap fun e => [e.1, e.2.1, e.2.2]) cur per clm =
            some (bribesFold cp (ks.zip ts) cur per clm) := by
        intro cur per clm
        exact ih ts cur per clm hlen'
      simp only [flatten3, List.flatMap_cons, List.cons_append, List.nil_append,
        List.zip_cons_cons, assignBribesLoop, List.tail_cons, List.head?_cons]
      by_cases h1 : cp ≤ t.2.1
      · by_cases h2 : k ≠ [] ∧ 0 < t.1
        · rw [if_pos h1, if_pos h2, ih' _ _ _, bribesFold]
          rw [if_pos ⟨h1, h2⟩]
        · rw [if_pos h1, if_neg h2, ih' _ _ _, bribesFold]
          rw [if_neg fun hc => h2 hc.2]
      · rw [if_neg h1, ih' _ _ _, bribesFold]
        rw [if_neg fun hc => h1 hc.1]

theorem bribesFold_cur_isSome (cp : Int) :
    ∀ (es : List (Addr × Int × Int × Int)) (cur per : GaugeRewards Int)
      (clm : GaugeRewards (Option Int)) (G T : Addr),
      (((bribesFold cp es cur per clm).1) G T).isSome ↔
        ((cur G T).isSome ∨
          ∃ e ∈ es, (cp ≤ e.2.2.1 ∧ e.1 ≠ [] ∧ 0 < e.2.1) ∧ normKey e.1 = (G, T)) := by
  intro es
  induction es with
  | nil => intro cur per clm G T; simp [bribesFold]
  | cons e es ih =>
    intro cur per clm G T
    rw [bribesFold]
    by_cases hc : cp ≤ e.2.2.1 ∧ e.1 ≠ [] ∧ 0 < e.2.1
    · rw [if_pos hc, ih]
      rw [grSet_isSome]
      constructor
      · rintro ((⟨rfl, rfl⟩ | hbase) | ⟨e', he', hcond', hk'⟩)
        · exact Or.inr ⟨e, List.mem_cons_self e es, hc, rfl⟩
        · exact Or.inl hbase
        · exact Or.inr ⟨e', List.mem_cons_of_mem e he', hcond', hk'⟩
      · rintro (hbase | ⟨e', he', hcond', hk'⟩)
        · exact Or.inl (Or.inr hbase)
        · rcases List.mem_cons.mp he' with rfl | he'
          · refine Or.inl (Or.inl ?_)
            rw [hk']
            exact ⟨rfl, rfl⟩
          · exact Or.inr ⟨e', he', hcond', hk'⟩
    · rw [if_neg hc, ih]
      constructor
      · rintro (hbase | ⟨e', he', hcond', hk'⟩)
        · exact Or.inl hbase
        · exact Or.inr ⟨e', List.mem_cons_of_mem e he', hcond', hk'⟩
      · rintro (hbase | ⟨e', he', hcond', hk'⟩)
        · exact Or.inl hbase
        · rcases List.mem_cons.mp he' with rfl | he'
          · exact absurd hcond' hc
          · exact Or.inr ⟨e', he', hcond', hk'⟩

theorem bribesFold_clm_isSome (cp : Int) :
    ∀ (es : List (Addr × Int × Int × Int)) (cur per : GaugeRewards Int)
      (clm : GaugeRewards (Option Int)) (G T : Addr),
      (((bribesFold cp es cur per clm).2.2) G T).isSome ↔
        ((clm G T).isSome ∨
          ∃ e ∈ es, (cp ≤ e.2.2.1 ∧ e.1 ≠ [] ∧ 0 < e.2.1) ∧ normKey e.1 = (G, T)) := by
  intro es
  induction es with
  | nil => intro cur per clm G T; simp [bribesFold]
  | cons e es ih =>
    intro cur per clm G T
    rw [bribesFold]
    by_cases hc : cp ≤ e.2.2.1 ∧ e.1 ≠ [] ∧ 0 < e.2.1
    · rw [if_pos hc, ih]
      rw [grSet_isSome]
      constructor
      · rintro ((⟨rfl, rfl⟩ | hbase) | ⟨e', he', hcond', hk'⟩)
        · exact Or.inr ⟨e, List.mem_cons_self e es, hc, rfl⟩
        · exact Or.inl hbase
        · exact Or.inr ⟨e', List.mem_cons_of_mem e he', hcond', hk'⟩
      · rintro (hbase | ⟨e', he', hcond', hk'⟩)
        · exact Or.inl (Or.inr hbase)
        · rcases List.mem_cons.mp he' with rfl | he'
          · refine Or.inl (Or.inl ?_)
            rw [hk']
            exact ⟨rfl, rfl⟩
          · exact Or.inr ⟨e', he', hcond', hk'⟩
    · rw [if_neg hc, ih]
      constructor
      · rintro (hbase | ⟨e', he', hcond', hk'⟩)
        · exact Or.inl hbase
        · exact Or.inr ⟨e', List.mem_cons_of_mem e he', hcond', hk'⟩
      · rintro (hbase | ⟨e', he', hcond', hk'⟩)
        · exact Or.inl hbase
        · rcases List.mem_cons.mp he' with rfl | he'
          · exact absurd hcond' hc
          · exact Or.inr ⟨e', he', hcond', hk'⟩

theorem assignBribes_flatten (cp : Int) (ks : List Addr)
    (ts : List (Int × Int × Int)) (s : BribesState)
    (hlen : ks.length = ts.length) (hne : ks ≠ []) :
    assignBribes cp ks (flatten3 ts) s =
      { s with
          currentRewards := (bribesFold cp (ks.zip ts) grEmpty grEmpty grEmpty).1,
          claimable := (bribesFold cp (ks.zip ts) grEmpty grEmpty grEmpty).2.2,
          isLoading := false } := by
  have hkslen : ¬(ks.length = 0) := by
    intro h
    exact hne (List.length_eq_zero.mp h)
  have hreslen : ¬((flatten3 ts).length = 0) := by
    rw [flatten3_length]
    omega
  unfold assignBribes
  rw [if_neg (by push_neg; exact ⟨hreslen, hkslen⟩),
    assignBribesLoop_flatten cp ks ts grEmpty grEmpty grEmpty hlen]

/-- C2: on a well-formed stride-3 input (one (reward, period, claimable) triple
per key, keys non-empty as `allowanceKey` always produces, rewards non-negative
as uint256 chain values are), `assignBribes` yields a `currentRewards` entry
for a normalized (gauge, token) pair exactly when some row with that pair has a
nonzero reward amount and a recorded period at or after `currentPeriod`. -/
theorem assignBribes_currentRewards_iff (cp : Int) (ks : List Addr)
    (ts : List (Int × Int × Int)) (s : BribesState) (G T : Addr)
    (hlen : ks.length = ts.length) (hne : ks ≠ [])
    (hkeys : ∀ k ∈ ks, k ≠ []) (hpos : ∀ e ∈ ts, 0 ≤ e.1) :
    (((assignBribes cp ks (flatten3 ts) s).currentRewards) G T).isSome ↔
      ∃ e ∈ ks.zip ts, normKey e.1 = (G, T) ∧ e.2.1 ≠ 0 ∧ cp ≤ e.2.2.1 := by
  rw [assignBribes_flatten cp ks ts s hlen hne]
  show ((bribesFold cp (ks.zip ts) grEmpty grEmpty grEmpty).1 G T).isSome ↔ _
  rw [bribesFold_cur_isSome]
  constructor
  · rintro (hbase | ⟨e, he, ⟨hp, _hk, hr⟩, hnk⟩)
    · simp [grEmpty] at hbase
    · exact ⟨e, he, hnk, ne_of_gt hr, hp⟩
  · rintro ⟨e, he, hnk, hr, hp⟩
    refine Or.inr ⟨e, he, ⟨hp, ?_, ?_⟩, hnk⟩
    · exact hkeys e.1 (List.of_mem_zip he).1
    · have h0 : 0 ≤ e.2.1 := hpos e.2 (List.of_mem_zip he).2
      omega

theorem assignBribes_currentRewards_iff_witness :
    (((assignBribes 5 ["0xg_0xt".toList] (flatten3 [(100, 5, 7)])
          (initialState 5)).currentRewards)
        (toAddress ("0xg".toList)) (toAddress ("0xt".toList))).isSome ↔
      ∃ e ∈ (["0xg_0xt".toList].zip [((100 : Int), (5 : Int), (7 : Int))]),
        normKey e.1 = (toAddress ("0xg".toList), toAddress ("0xt".toList)) ∧
          e.2.1 ≠ 0 ∧ 5 ≤ e.2.2.1 :=
  assignBribes_currentRewards_iff 5 ["0xg_0xt".toList] [(100, 5, 7)] (initialState 5)
    (toAddress ("0xg".toList)) (toAddress ("0xt".toList)) rfl (by simp)
    (by intro k hk; simp at hk; subst hk; decide) (by intro e he; simp at he; subst he; decide)

/-- The key sets of the `currentRewards` and `claimable` mappings coincide. -/
def keysAligned (s : BribesState) : Prop :=
  ∀ G T, ((s.currentRewards) G T).isSome ↔ ((s.claimable) G T).isSome

theorem assignBribesLoop_aligned (cp : Int) :
    ∀ (ks : List Addr) (res : List Int) (cur per : GaugeRewards Int)
      (clm : GaugeRewards (Option Int))
      (out : GaugeRewards Int × GaugeRewards Int × GaugeRewards (Option Int)),
      assignBribesLoop cp ks res cur per clm = some out →
      (∀ G T, (cur G T).isSome ↔ (clm G T).isSome) →
      ∀ G T, ((out.1) G T).isSome ↔ ((out.2.2) G T).isSome := by
  intro ks
  induction ks with
  | nil =>
    intro res cur per clm out h hbase G T
    simp only [assignBribesLoop, Option.some.injEq] at h
    subst h
    exact hbase G T
  | cons k ks ih =>
    intro res cur per clm out h hbase G T
    match res with
    | [] => simp [assignBribesLoop] at h
    | [r] => simp [assignBribesLoop] at h
    | r :: p :: rest =>
      simp only [assignBribesLoop] at h
      by_cases h1 : cp ≤ p
      · rw [if_pos h1] at h
        by_cases h2 : k ≠ [] ∧ 0 < r
        · rw [if_pos h2] at h
          refine ih rest.tail _ _ _ out h ?_ G T
          intro G' T'
          rw [grSet_isSome, grSet_isSome]
          exact or_congr Iff.rfl (hbase G' T')
        · rw [if_neg h2] at h
          exact ih rest.tail _ _ _ out h hbase G T
      · rw [if_neg h1] at h
        exact ih rest.tail _ _ _ out h hbase G T

/-- C9: the key sets of `claimable` and `currentRewards` always coincide: they
do in the initial state, every `assignBribes` run preserves the property, and
on a well-formed published run a claimable entry for a normalized (gauge,
token) pair exists only when a row for that very pair has a positive reward
and a period at or after `currentPeriod` (regardless of the claimable amount
itself). -/
theorem assignBribes_aligned_keys :
    (∀ p, keysAligned (initialState p)) ∧
    (∀ cp ks res s, keysAligned s → keysAligned (assignBribes cp ks res s)) ∧
    (∀ cp (ks : List Addr) (ts : List (Int × Int × Int)) (s : BribesState) (G T : Addr),
      ks.length = ts.length → ks ≠ [] →
      (((assignBribes cp ks (flatten3 ts) s).claimable) G T).isSome →
      ∃ e ∈ ks.zip ts, normKey e.1 = (G, T) ∧ 0 < e.2.1 ∧ cp ≤ e.2.2.1) := by
  refine ⟨?_, ?_, ?_⟩
  · intro p G T
    simp [initialState, grEmpty]
  · intro cp ks res s hs
    unfold assignBribes
    by_cases hcond : res.length = 0 ∨ ks.length = 0
    · rw [if_pos hcond]
      exact hs
    · rw [if_neg hcond]
      cases hloop : assignBribesLoop cp ks res grEmpty grEmpty grEmpty with
      | none => exact hs
      | some out =>
        obtain ⟨cur, per, clm⟩ := out
        intro G T
        exact assignBribesLoop_aligned cp ks res grEmpty grEmpty grEmpty
          (cur, per, clm) hloop (fun _ _ => by simp [grEmpty]) G T
  · intro cp ks ts s G T hlen hne hsome
    rw [assignBribes_flatten cp ks ts s hlen hne] at hsome
    have hsome' :
        ((bribesFold cp (ks.zip ts) grEmpty grEmpty grEmpty).2.2 G T).isSome := hsome
    rw [bribesFold_clm_isSome] at hsome'
    rcases hsome' with hbase | ⟨e, he, ⟨hp, _hk, hr⟩, hnk⟩
    · simp [grEmpty] at hbase
    · exact ⟨e, he, hnk, hr, hp⟩

theorem assignBribes_aligned_keys_witness :
    keysAligned (assignBribes 0 ["0xg_0xt".toList] [1, 2, 3] (initialState 0)) :=
  assignBribes_aligned_keys.2.1 0 ["0xg_0xt".toList] [1, 2, 3] (initialState 0)
    (assignBribes_aligned_keys.1 0)

/-- The effect of the `assignNextRewards` decode loop on a well-formed stride-2
input, as a fold over the zipped (key, pair) rows. -/
def nextFold :
    List (Addr × Int × Int) → GaugeRewards Int → GaugeRewards Int
  | [], nxt => nxt
  | e :: es, nxt =>
    if e.1 ≠ [] then
      nextFold es (grSet nxt (normKey e.1).1 (normKey e.1).2 (e.2.1 - e.2.2))
    else nextFold es nxt

theorem assignNextLoop_flatten :
    ∀ (ks : List Addr) (ps : List (Int × Int)) (nxt : GaugeRewards Int),
      ks.length = ps.length →
      assignNextLoop ks (flatten2 ps) nxt = some (nextFold (ks.zip ps) nxt) := by
  intro ks
  induction ks with
  | nil =>
    intro ps nxt hlen
    have : ps = [] := by
      cases ps with
      | nil => rfl
      | cons p ps => simp at hlen
    subst this
    rfl
  | cons k ks ih =>
    intro ps nxt hlen
    cases ps with
    | nil => simp at hlen
    | cons p ps =>
      have hlen' : ks.length = ps.length := by simpa using hlen
      have ih' : ∀ nxt,
          assignNextLoop ks (ps.flatMap fun e => [e.1, e.2]) nxt =
            some (nextFold (ks.zip ps) nxt) := fun nxt => ih ps nxt hlen'
      simp only [flatten2, List.flatMap_cons, List.cons_append, List.nil_append,
        List.zip_cons_cons, assignNextLoop, nextFold]
      by_cases hk : k ≠ []
      · rw [if_pos hk, if_pos hk, ih' _]
        rfl
      · rw [if_neg hk, if_neg hk, ih' _]
        rfl

theorem nextFold_frame :
    ∀ (es : List (Addr × Int × Int)) (nxt : GaugeRewards Int) (G T : Addr),
      (∀ e ∈ es, e.1 ≠ [] → normKey e.1 ≠ (G, T)) →
      (nextFold es nxt) G T = nxt G T := by
  intro es
  induction es with
  | nil => intro nxt G T _; rfl
  | cons e es ih =>
    intro nxt G T hall
    rw [nextFold]
    by_cases hk : e.1 ≠ []
    · rw [if_pos hk, ih _ G T fun e' he' => hall e' (List.mem_cons_of_mem e he')]
      refine grSet_other _ _ _ _ _ _ fun hc => ?_
      obtain ⟨rfl, rfl⟩ := hc
      exact hall e (List.mem_cons_self e es) hk rfl
    · rw [if_neg hk]
      exact ih _ G T fun e' he' => hall e' (List.mem_cons_of_mem e he')

theorem nextFold_get_of_nodup :
    ∀ (es : List (Addr × Int × Int)) (i : Nat) (hi : i < es.length)
      (nxt : GaugeRewards Int),
      ((es.map fun e => normKey e.1).Nodup) →
      (es.get ⟨i, hi⟩).1 ≠ [] →
      (nextFold es nxt) (normKey (es.get ⟨i, hi⟩).1).1 (normKey (es.get ⟨i, hi⟩).1).2 =
        some ((es.get ⟨i, hi⟩).2.1 - (es.get ⟨i, hi⟩).2.2) := by
  intro es
  induction es with
  | nil => intro i hi; simp at hi
  | cons e es ih =>
    intro i hi nxt hnodup hk
    have hnodup' : (es.map fun e => normKey e.1).Nodup := by
      simpa using (List.nodup_cons.mp (by simpa using hnodup)).2
    have hnotin : normKey e.1 ∉ es.map fun e => normKey e.1 :=
      (List.nodup_cons.mp (by simpa using hnodup)).1
    cases i with
    | zero =>
      simp only [List.get] at hk ⊢
      rw [nextFold, if_pos hk]
      rw [nextFold_frame es _ _ _ ?_]
      · exact grSet_same _ _ _ _
      · intro e' he' _ hne
        apply hnotin
        have hne' : normKey e'.1 = normKey e.1 := by
          rw [hne]
        exact hne' ▸ List.mem_map_of_mem (fun e => normKey e.1) he'
    | succ i =>
      have hi' : i < es.length := by simpa using hi
      simp only [List.get] at hk ⊢
      rw [nextFold]
      by_cases hke : e.1 ≠ []
      · rw [if_pos hke]
        exact ih i hi' _ hnodup' hk
      · rw [if_neg hke]
        exact ih i hi' _ hnodup' hk

theorem assignNextRewards_flatten (ks : List Addr) (ps : List (Int × Int))
    (s : BribesState) (hlen : ks.length = ps.length) (hne : ks ≠ []) :
    assignNextRewards ks (flatten2 ps) s =
      { s with nextRewards := nextFold (ks.zip ps) grEmpty } := by
  have hkslen : ¬(ks.length = 0) := fun h => hne (List.length_eq_zero.mp h)
  have hreslen : ¬((flatten2 ps).length = 0) := by
    rw [flatten2_length]
    omega
  unfold assignNextRewards
  rw [if_neg (by push_neg; exact ⟨hreslen, hkslen⟩),
    assignNextLoop_flatten ks ps grEmpty hlen]

/-- C3: on a well-formed stride-2 input (one (reward_per_gauge,
claims_per_gauge) pair per non-empty key, keys mapping to pairwise distinct
normalized (gauge, token) pairs), `assignNextRewards` stores for the i-th pair
exactly the integer difference of its own two values — independent of every
other pair and not clamped at zero, so a negative difference is stored as is. -/
theorem assignNextRewards_diff (ks : List Addr) (ps : List (Int × Int))
    (s : BribesState) (i : Nat) (hi : i < ks.length)
    (hlen : ks.length = ps.length) (hkeys : ∀ k ∈ ks, k ≠ [])
    (hnodup : (ks.map normKey).Nodup) :
    ((assignNextRewards ks (flatten2 ps) s).nextRewards)
        (normKey (ks.get ⟨i, hi⟩)).1 (normKey (ks.get ⟨i, hi⟩)).2 =
      some ((ps.get ⟨i, hlen ▸ hi⟩).1 - (ps.get ⟨i, hlen ▸ hi⟩).2) := by
  have hne : ks ≠ [] := by
    intro h
    subst h
    simp at hi
  rw [assignNextRewards_flatten ks ps s hlen hne]
  have hzlen : i < (ks.zip ps).length := by
    rw [List.length_zip, ← hlen, min_self]
    exact hi
  have hmap : (ks.zip ps).map (fun e => normKey e.1) = ks.map normKey := by
    have h1 : (fun (e : Addr × Int × Int) => normKey e.1) =
        (normKey ∘ Prod.fst) := rfl
    rw [h1, ← List.map_map, List.map_fst_zip ks ps (le_of_eq hlen)]
  have hget : (ks.zip ps).get ⟨i, hzlen⟩ =
      (ks.get ⟨i, hi⟩, ps.get ⟨i, hlen ▸ hi⟩) := by
    simp [List.get_eq_getElem, List.getElem_zip]
  have hkey : ((ks.zip ps).get ⟨i, hzlen⟩).1 ≠ [] := by
    rw [hget]
    exact hkeys _ (List.get_mem ks i hi)
  have h := nextFold_get_of_nodup (ks.zip ps) i hzlen grEmpty
    (by rw [hmap]; exact hnodup) hkey
  rw [hget] at h
  exact h

theorem assignNextRewards_diff_witness :
    ((assignNextRewards ["0xg_0xt".toList] (flatten2 [(100, 130)])
          (initialState 0)).nextRewards)
        (normKey (["0xg_0xt".toList].get ⟨0, by simp⟩)).1
        (normKey (["0xg_0xt".toList].get ⟨0, by simp⟩)).2 =
      some (100 - 130) :=
  assignNextRewards_diff ["0xg_0xt".toList] [((100 : Int), (130 : Int))]
    (initialState 0) 0 (by simp) rfl
    (by intro k hk; simp at hk; subst hk; decide) (by simp)

theorem userTokenCalls_contract (tokens : List Addr) (c u g : Addr) :
    ∀ x ∈ userTokenCalls c u g tokens, BribeCall.contractOf x = c := by
  intro x hx
  simp only [userTokenCalls, List.mem_flatMap, List.mem_cons, List.not_mem_nil,
    or_false] at hx
  obtain ⟨tok, -, hx | hx | hx⟩ := hx <;> subst hx <;> rfl

theorem userFetchLoop_contract (contract userAddress : Addr) :
    ∀ (gs : List Gauge) (rpgs : List (List Addr)),
      ∀ x ∈ (userFetchLoop contract userAddress gs rpgs).multicall,
        BribeCall.contractOf x = contract := by
  intro gs
  induction gs with
  | nil => intro rpgs x hx; simp [userFetchLoop] at hx
  | cons g gs ih =>
    intro rpgs x hx
    simp only [userFetchLoop] at hx
    cases hh : rpgs.head? with
    | none =>
      rw [hh] at hx
      exact ih rpgs.tail x hx
    | some l =>
      rw [hh] at hx
      by_cases hl : l.length > 0
      · simp only [hl, if_true, List.mem_append] at hx
        rcases hx with hx | hx
        · exact userTokenCalls_contract l contract userAddress g.gauge x hx
        · exact ih rpgs.tail x hx
      · simp only [hl, if_false] at hx
        exact ih rpgs.tail x hx

theorem getRewardsPerUser_contract (isActive : Bool) (provider : Option Unit)
    (address contract : Addr) (gauges : List Gauge) (rpg : List (List Addr)) :
    ∀ x ∈ (getRewardsPerUser isActive provider address contract gauges rpg).multicall,
      BribeCall.contractOf x = contract := by
  intro x hx
  unfold getRewardsPerUser at hx
  by_cases hcond : isActive = false ∨ provider = none ∨ rpg.length = 0
  · rw [if_pos hcond] at hx
    exact absurd hx (List.not_mem_nil _)
  · rw [if_neg hcond] at hx
    exact userFetchLoop_contract contract _ gauges rpg x hx

/-- C1 (refuting the claim): inside `getBribes`, every call of the per-user
fetch batch built over the V3-discovered token lists is issued against the V2
registry contract (line 244 passes `curveBribeV2Contract`); in particular, when
the two registry addresses differ, no call of that batch targets the V3
registry the claim names. -/
theorem getBribes_userFetchV3_contract (v2addr v3addr : Addr) (isActive : Bool)
    (provider : Option Unit) (address : Addr)
    (chainTokens : Addr → Addr → List Addr) (oracle : BribeCall → Int)
    (gauges : List Gauge) (s : BribesState) :
    (∀ x ∈ (getBribes v2addr v3addr isActive provider address chainTokens oracle
        gauges s).userFetchV3.multicall, BribeCall.contractOf x = v2addr) ∧
    (v2addr ≠ v3addr →
      ∀ x ∈ (getBribes v2addr v3addr isActive provider address chainTokens oracle
          gauges s).userFetchV3.multicall, BribeCall.contractOf x ≠ v3addr) := by
  have hmain :
      ∀ x ∈ (getBribes v2addr v3addr isActive provider address chainTokens oracle
          gauges s).userFetchV3.multicall, BribeCall.contractOf x = v2addr := by
    intro x hx
    exact getRewardsPerUser_contract isActive provider address v2addr _ _ x hx
  exact ⟨hmain, fun hne x hx => (hmain x hx) ▸ hne⟩

theorem getBribes_userFetchV3_contract_witness :
    BribeCall.contractOf
        (BribeCall.reward_per_token ("0xb2".toList) ("0xg".toList) ("0xt".toList)) =
      "0xb2".toList ∧
    BribeCall.contractOf
        (BribeCall.reward_per_token ("0xb2".toList) ("0xg".toList) ("0xt".toList)) ≠
      "0xb3".toList :=
  ⟨(getBribes_userFetchV3_contract ("0xb2".toList) ("0xb3".toList) true (some ())
      ("0xu".toList) (fun _ _ => ["0xt".toList]) (fun _ => 0)
      [⟨"0xg".toList, none⟩] (initialState 0)).1 _ (by decide),
    (getBribes_userFetchV3_contract ("0xb2".toList) ("0xb3".toList) true (some ())
      ("0xu".toList) (fun _ _ => ["0xt".toList]) (fun _ => 0)
      [⟨"0xg".toList, none⟩] (initialState 0)).2 (by decide) _ (by decide)⟩

theorem assignNextRewards_isLoading (ks : List Addr) (res : List Int)
    (s : BribesState) : (assignNextRewards ks res s).isLoading = s.isLoading := by
  unfold assignNextRewards
  by_cases hcond : res.length = 0 ∨ ks.length = 0
  · rw [if_pos hcond]
  · rw [if_neg hcond]
    cases assignNextLoop ks res grEmpty with
    | none => rfl
    | some nxt => rfl

theorem userFetchLoop_all_nil (contract userAddress : Addr) :
    ∀ (gs : List Gauge) (rpgs : List (List Addr)), (∀ l ∈ rpgs, l = []) →
      userFetchLoop contract userAddress gs rpgs = ⟨gs, [], []⟩ := by
  intro gs
  induction gs with
  | nil => intro rpgs _; rfl
  | cons g gs ih =>
    intro rpgs hall
    have htail : ∀ l ∈ rpgs.tail, l = [] :=
      fun l hl => hall l (List.mem_of_mem_tail hl)
    simp only [userFetchLoop, ih rpgs.tail htail]
    cases hh : rpgs.head? with
    | none => rfl
    | some l =>
      have : l = [] := hall l (List.mem_of_mem_head? hh)
      subst this
      simp

theorem nextFetchLoop_all_nil (contract : Addr) :
    ∀ (gs : List Gauge) (rpgs : List (List Addr)), (∀ l ∈ rpgs, l = []) →
      nextFetchLoop contract gs rpgs = ([], []) := by
  intro gs
  induction gs with
  | nil => intro rpgs _; rfl
  | cons g gs ih =>
    intro rpgs hall
    have htail : ∀ l ∈ rpgs.tail, l = [] :=
      fun l hl => hall l (List.mem_of_mem_tail hl)
    simp only [nextFetchLoop, ih rpgs.tail htail]
    cases hh : rpgs.head? with
    | none => rfl
    | some l =>
      have : l = [] := hall l (List.mem_of_mem_head? hh)
      subst this
      simp

theorem getRewardsPerUser_empty_keys (isActive : Bool) (provider : Option Unit)
    (address contract : Addr) (gauges : List Gauge) (rpg : List (List Addr))
    (h : ∀ l ∈ rpg, l = []) :
    (getRewardsPerUser isActive provider address contract gauges rpg).rewardsList = [] ∧
    (getRewardsPerUser isActive provider address contract gauges rpg).multicall = [] ∧
    (getRewardsPerUser isActive provider address contract gauges rpg).gauges = gauges := by
  unfold getRewardsPerUser
  by_cases hcond : isActive = false ∨ provider = none ∨ rpg.length = 0
  · rw [if_pos hcond]
    exact ⟨rfl, rfl, rfl⟩
  · rw [if_neg hcond, userFetchLoop_all_nil contract _ gauges rpg h]
    exact ⟨rfl, rfl, rfl⟩

theorem getNextPeriodRewards_empty_keys (isActive : Bool) (provider : Option Unit)
    (contract : Addr) (gauges : List Gauge) (rpg : List (List Addr))
    (h : ∀ l ∈ rpg, l = []) :
    getNextPeriodRewards isActive provider contract gauges rpg = ([], []) := by
  unfold getNextPeriodRewards
  by_cases hcond : isActive = false ∨ provider = none ∨ rpg.length = 0
  · rw [if_pos hcond]
  · rw [if_neg hcond]
    exact nextFetchLoop_all_nil contract gauges rpg h

theorem getRewardsPerGauges_mem_nil (isActive : Bool) (provider : Option Unit)
    (chainTokens : Addr → Addr → List Addr) (contract : Addr) (gauges : List Gauge)
    (h : isActive = false ∨ provider = none ∨ gauges = [] ∨
      ∀ g ∈ gauges, chainTokens contract g.gauge = []) :
    ∀ l ∈ getRewardsPerGauges isActive provider chainTokens contract gauges, l = [] := by
  intro l hl
  unfold getRewardsPerGauges at hl
  by_cases hcond : isActive = false ∨ provider = none ∨ gauges.length = 0
  · rw [if_pos hcond] at hl
    exact absurd hl (List.not_mem_nil _)
  · rw [if_neg hcond] at hl
    obtain ⟨g, hg, hgl⟩ := List.mem_map.mp hl
    rcases h with h | h | h | h
    · exact absurd (Or.inl h) hcond
    · exact absurd (Or.inr (Or.inl h)) hcond
    · exact absurd (Or.inr (Or.inr (by simp [h]))) hcond
    · rw [← hgl]
      exact h g hg

/-- C10: the loading flag starts true, no primitive state operation other than
an `assignBribes` run with both a non-empty key list and a non-empty result
list can turn it false, and a `getBribes` refresh that short-circuits (inactive
wallet, missing provider, no gauges, or no discovered reward tokens on either
contract) leaves the whole state — the loading flag included — unchanged. -/
theorem isLoading_transitions :
    (∀ p, (initialState p).isLoading = true) ∧
    (∀ (s : BribesState) (op : StateOp), (stepState s op).isLoading = false →
      s.isLoading = false ∨
        ∃ ks res, op = StateOp.assignBribesOp ks res ∧ ks ≠ [] ∧ res ≠ []) ∧
    (∀ (v2addr v3addr : Addr) (isActive : Bool) (provider : Option Unit)
      (address : Addr) (chainTokens : Addr → Addr → List Addr)
      (oracle : BribeCall → Int) (gauges : List Gauge) (s : BribesState),
      (isActive = false ∨ provider = none ∨ gauges = [] ∨
        ∀ g ∈ gauges, chainTokens v2addr g.gauge = [] ∧ chainTokens v3addr g.gauge = []) →
      ((getBribes v2addr v3addr isActive provider address chainTokens oracle
          gauges s).state).isLoading = s.isLoading) := by
  refine ⟨fun p => rfl, ?_, ?_⟩
  · intro s op h
    cases op with
    | assignBribesOp ks res =>
      simp only [stepState] at h
      by_cases hcond : res.length = 0 ∨ ks.length = 0
      · left
        unfold assignBribes at h
        rw [if_pos hcond] at h
        exact h
      · right
        push_neg at hcond
        exact ⟨ks, res, rfl, fun hk => hcond.2 (by simp [hk]),
          fun hr => hcond.1 (by simp [hr])⟩
    | assignNextRewardsOp ks res =>
      left
      simp only [stepState] at h
      rw [assignNextRewards_isLoading] at h
      exact h
    | setPeriodsOp p =>
      left
      exact h
  · intro v2addr v3addr isActive provider address chainTokens oracle gauges s h
    have hv2 : isActive = false ∨ provider = none ∨ gauges = [] ∨
        ∀ g ∈ gauges, chainTokens v2addr g.gauge = [] := by
      rcases h with h | h | h | h
      · exact Or.inl h
      · exact Or.inr (Or.inl h)
      · exact Or.inr (Or.inr (Or.inl h))
      · exact Or.inr (Or.inr (Or.inr fun g hg => (h g hg).1))
    have hv3 : isActive = false ∨ provider = none ∨ gauges = [] ∨
        ∀ g ∈ gauges, chainTokens v3addr g.gauge = [] := by
      rcases h with h | h | h | h
      · exact Or.inl h
      · exact Or.inr (Or.inl h)
      · exact Or.inr (Or.inr (Or.inl h))
      · exact Or.inr (Or.inr (Or.inr fun g hg => (h g hg).2))
    have hd2 := getRewardsPerGauges_mem_nil isActive provider chainTokens v2addr gauges hv2
    have hd3 := getRewardsPerGauges_mem_nil isActive provider chainTokens v3addr gauges hv3
    obtain ⟨hu2k, hu2m, hu2g⟩ :=
      getRewardsPerUser_empty_keys isActive provider address v2addr gauges _ hd2
    simp only [getBribes, hu2g]
    obtain ⟨hu3k, hu3m, hu3g⟩ :=
      getRewardsPerUser_empty_keys isActive provider address v2addr gauges _ hd3
    rw [hu2k, hu2m, hu3k, hu3m, hu3g,
      getNextPeriodRewards_empty_keys isActive provider v3addr gauges _ hd3]
    simp [assignBribes, assignNextRewards]

theorem isLoading_transitions_witness :
    ((getBribes ("0xb2".toList) ("0xb3".toList) false none ("0xu".toList)
        (fun _ _ => []) (fun _ => 0) [⟨"0xg".toList, none⟩]
        (initialState 3)).state).isLoading = (initialState 3).isLoading :=
  isLoading_transitions.2.2 ("0xb2".toList) ("0xb3".toList) false none
    ("0xu".toList) (fun _ _ => []) (fun _ => 0) [⟨"0xg".toList, none⟩]
    (initialState 3) (Or.inl rfl)
